import Mathlib

/-!
Verification of litellm's `litellm/llms/base_llm/base_utils.py`:
the response-format normalizer (`type_to_response_format_param` /
`_dict_to_response_format_helper`), the `$ref` rewriter (`update_refs`),
the rerank cost helper (`BaseLLMModelInfo.get_rerank_cost`) and the
developer-to-system role remap (`map_developer_role_to_system_role`).

Python objects live on a heap and are reachable through references, so
schema graphs may alias and contain cycles, and `update_refs` deduplicates
on `id(obj)`.  We embed this with an explicit heap: a `Nat`-keyed
association list of objects, where container fields hold either leaves or
heap references (`JVal.ref`).  Mutation of an object in place is modelled
by replacing the binding at its id (`heapSet`); `id(obj)` is the key
itself.
-/

/-- A Python value stored inside a container: a leaf (string, number,
boolean, None) or a reference to a heap object (a dict or a list). -/
inductive JVal where
  | str (s : String)
  | num (n : Int)
  | bool (b : Bool)
  | null
  | ref (id : Nat)
  deriving DecidableEq, Repr

/-- A heap object: a Python dict (ordered association list of fields) or a
Python list. -/
inductive JObj where
  | dict (entries : List (String × JVal))
  | arr (items : List JVal)
  deriving DecidableEq, Repr

/-- The heap: object identity (`id(obj)`) to object.  Lookup takes the
first binding with the given key. -/
abbrev Heap := List (Nat × JObj)

/-- Association-list field lookup, the embedding of `d[k]` / `d.get(k)` /
`k in d` on a Python dict (first binding wins, as keys are unique in any
heap built from a real Python dict). -/
def alGet {β : Type} : List (String × β) → String → Option β
  | [], _ => none
  | (k', v) :: rest, k => if k' = k then some v else alGet rest k

/-- `d[k] = v` on a Python dict: replace the first binding of `k` in
place, or append a new binding when `k` is absent. -/
def dictSet : List (String × JVal) → String → JVal → List (String × JVal)
  | [], k, v => [(k, v)]
  | (k', v') :: rest, k, v =>
      if k' = k then (k, v) :: rest else (k', v') :: dictSet rest k v

/-- Heap lookup by object identity. -/
def heapGet : Heap → Nat → Option JObj
  | [], _ => none
  | (i, o) :: rest, id => if i = id then some o else heapGet rest id

/-- In-place mutation of the object with identity `id`: every binding of
`id` is replaced by the new object (a heap built from Python objects binds
each id once). -/
def heapSet (heap : Heap) (id : Nat) (o : JObj) : Heap :=
  heap.map fun p => (p.1, if p.1 = id then o else p.2)

/-- Membership in the `visited` set of object identities. -/
def natMem (visited : List Nat) (id : Nat) : Bool :=
  match visited with
  | [] => false
  | v :: rest => if v = id then true else natMem rest id

/-- The identities of the dict- or list-valued children of an object: the
values `v` with `isinstance(v, (dict, list))`, which are exactly the heap
references in this embedding. -/
def refId : JVal → Option Nat
  | .ref i => some i
  | _ => none

def childIds : JObj → List Nat
  | .dict es => es.filterMap fun p => refId p.2
  | .arr xs => xs.filterMap refId

/-- The Python expression `ref_path.split("/")[-1]`: the last
`/`-separated segment, i.e. the trailing run of non-`/` characters
(empty when the string ends in `/`, the whole string when it has no `/`).
-/
def lastSegment (s : String) : String :=
  String.mk ((s.data.reverse.takeWhile fun c => c ≠ '/').reverse)

/-- The caller-supplied reference template: a format string with a single
named slot `model`, i.e. a prefix and a suffix around the interpolated
name.  `fmt` is `ref_template.format(model = name)`. -/
structure RefTemplate where
  pre : String
  post : String
  deriving DecidableEq, Repr

def RefTemplate.fmt (t : RefTemplate) (model : String) : String :=
  t.pre ++ model ++ t.post

/-- One run of the `while stack:` loop of `update_refs`, with explicit
fuel (`none` = fuel exhausted; the totality theorem shows the fuel chosen
by `updateRefs` always suffices).  The stack holds object identities (only
dicts and lists are ever pushed); `visited` is the set of seen ids.  A
dict whose `"$ref"` value is not a string makes `ref_path.split("/")`
raise, embedded as `Except.error`.  On success the final heap and visited
set are returned. -/
def updateRefsAux (t : RefTemplate) :
    Nat → Heap → List Nat → List Nat → Option (Except String (Heap × List Nat))
  | 0, _, _, _ => none
  | Nat.succ fuel, heap, stack, visited =>
    match stack with
    | [] => some (Except.ok (heap, visited))
    | id :: rest =>
      if natMem visited id then
        updateRefsAux t fuel heap rest visited
      else
        match heapGet heap id with
        | none => updateRefsAux t fuel heap rest (id :: visited)
        | some (JObj.dict es) =>
          match alGet es "$ref" with
          | some (JVal.str s) =>
            let es' := dictSet es "$ref" (JVal.str (t.fmt (lastSegment s)))
            updateRefsAux t fuel (heapSet heap id (JObj.dict es'))
              ((childIds (JObj.dict es')).reverse ++ rest) (id :: visited)
          | some _ =>
            some (Except.error "AttributeError: object has no attribute split")
          | none =>
            updateRefsAux t fuel heap
              ((childIds (JObj.dict es)).reverse ++ rest) (id :: visited)
        | some (JObj.arr xs) =>
          updateRefsAux t fuel heap
            ((childIds (JObj.arr xs)).reverse ++ rest) (id :: visited)

/-- Weight of one object for the termination measure: its pushable
children plus one. -/
def objWeight (o : JObj) : Nat := (childIds o).length + 1

/-- Total weight of the not-yet-visited part of the heap. -/
def heapWeight (heap : Heap) (visited : List Nat) : Nat :=
  match heap with
  | [] => 0
  | (i, o) :: rest =>
      (if natMem visited i then 0 else objWeight o) + heapWeight rest visited

/-- Fuel sufficient for `updateRefsAux` (strictly more than the measure
`stack.length + heapWeight heap visited`). -/
def updateRefsFuel (heap : Heap) (stack visited : List Nat) : Nat :=
  stack.length + heapWeight heap visited + 1

/-- `update_refs(schema)`: run the worklist from the root.  A non-dict,
non-list root is popped once and ignored, so only a reference root starts
a traversal.  Returns the mutated heap (or the raised error). -/
def updateRefs (t : RefTemplate) (heap : Heap) (root : JVal) :
    Except String Heap :=
  match root with
  | JVal.ref id =>
    match updateRefsAux t (updateRefsFuel heap [id] []) heap [id] [] with
    | some (Except.ok (h, _)) => Except.ok h
    | some (Except.error e) => Except.error e
    | none => Except.ok heap
  | _ => Except.ok heap

/-- Shift a value's heap reference by `b` (leaves unchanged). -/
def shiftVal (b : Nat) : JVal → JVal
  | JVal.ref i => JVal.ref (b + i)
  | v => v

/-- Shift every reference inside an object by `b`. -/
def shiftObj (b : Nat) : JObj → JObj
  | JObj.dict es => JObj.dict (es.map fun p => (p.1, shiftVal b p.2))
  | JObj.arr xs => JObj.arr (xs.map (shiftVal b))

/-- The first identity strictly above every id bound in the heap. -/
def freshBase (heap : Heap) : Nat :=
  match heap with
  | [] => 0
  | (i, _) :: rest => max (i + 1) (freshBase rest)

/-- `copy.deepcopy(response_format)`: allocate, at fresh identities
`b + id`, an isomorphic copy of the object graph — same dictionaries and
lists, every internal reference shifted into the fresh region, so
aliasing and cycles are reproduced and the copy shares no mutable
sub-structure with the original. -/
def copyRegion (b : Nat) (heap : Heap) : Heap :=
  heap.map fun p => (b + p.1, shiftObj b p.2)

def deepcopyHeap (heap : Heap) : Heap :=
  heap ++ copyRegion (freshBase heap) heap

/-- `_dict_to_response_format_helper(response_format, ref_template)`.
`response_format` is the dict at identity `rf`.  When a template is given
and `response_format.get("type") == "json_schema"`, deep-copy, subscript
`modified_format["json_schema"]["schema"]` (a missing key raises
`KeyError`, subscripting a non-dict raises `TypeError`), run `update_refs`
on that schema and return the modified copy; otherwise return the input
dict itself. -/
def dictToResponseFormatHelper (heap : Heap) (rf : Nat)
    (tpl : Option RefTemplate) : Except String (Heap × Nat) :=
  match tpl with
  | none => Except.ok (heap, rf)
  | some t =>
    match heapGet heap rf with
    | some (JObj.dict es) =>
      if alGet es "type" = some (JVal.str "json_schema") then
        let b := freshBase heap
        let heap1 := deepcopyHeap heap
        let mf := b + rf
        match heapGet heap1 mf with
        | some (JObj.dict mfEs) =>
          match alGet mfEs "json_schema" with
          | some (JVal.ref jsId) =>
            match heapGet heap1 jsId with
            | some (JObj.dict jsEs) =>
              match alGet jsEs "schema" with
              | some schema =>
                match updateRefs t heap1 schema with
                | Except.ok heap2 => Except.ok (heap2, mf)
                | Except.error e => Except.error e
              | none => Except.error "KeyError: schema"
            | _ => Except.error "TypeError: json_schema is not subscriptable"
          | some _ => Except.error "TypeError: json_schema is not subscriptable"
          | none => Except.error "KeyError: json_schema"
        | _ => Except.error "TypeError: copy is not a dict"
      else Except.ok (heap, rf)
    | _ => Except.error "AttributeError: input has no attribute get"

/-- A pydantic `BaseModel` subclass, an external collaborator of
`type_to_response_format_param`: its declared name together with the two
opaque schema-derivation entry points the source calls
(`model_json_schema(ref_template=...)` and
`_pydantic.to_strict_json_schema`), each allocating its derived schema on
the heap. -/
structure PydModel where
  name : String
  modelJsonSchema : RefTemplate → Heap → Heap × JVal
  toStrictJsonSchema : Heap → Heap × JVal

/-- The possible `response_format` arguments of
`type_to_response_format_param`: `None`, an already-dict-shaped mapping
(by heap identity), a recognized pydantic model class, or any other value
(kept as its display string, used in the raised error message). -/
inductive ResponseFormatInput where
  | none
  | dict (rf : Nat)
  | basemodel (m : PydModel)
  | other (descr : String)

/-- `type_to_response_format_param(response_format, ref_template)`:
`None` passes through, a dict goes to the helper, a pydantic class is
converted to the canonical strict envelope, and anything else raises
`TypeError` naming the offending value. -/
def typeToResponseFormatParam (heap : Heap) (rf : ResponseFormatInput)
    (tpl : Option RefTemplate) : Except String (Heap × Option Nat) :=
  match rf with
  | ResponseFormatInput.none => Except.ok (heap, Option.none)
  | ResponseFormatInput.dict rfId =>
    match dictToResponseFormatHelper heap rfId tpl with
    | Except.ok (h, r) => Except.ok (h, some r)
    | Except.error e => Except.error e
  | ResponseFormatInput.basemodel m =>
    let hs :=
      match tpl with
      | some t => m.modelJsonSchema t heap
      | Option.none => m.toStrictJsonSchema heap
    let jsId := freshBase hs.1
    let h2 := hs.1 ++ [(jsId, JObj.dict
      [("schema", hs.2), ("name", JVal.str m.name),
       ("strict", JVal.bool true)])]
    let h3 := h2 ++ [(jsId + 1, JObj.dict
      [("type", JVal.str "json_schema"), ("json_schema", JVal.ref jsId)])]
    Except.ok (h3, some (jsId + 1))
  | ResponseFormatInput.other d =>
    Except.error ("Unsupported response_format type - " ++ d)

/-- The pricing record returned by `litellm.utils.get_model_info` (an
external collaborator): the `input_cost_per_query` field is absent
(`Option.none`), present but `None` (`some Option.none`), or a number
(costs idealized as rationals). -/
structure ModelInfo where
  inputCostPerQuery : Option (Option ℚ)

/-- `BaseLLMModelInfo.get_rerank_cost(model, num_queries,
custom_llm_provider)`, parametric in the external `get_model_info` (whose
exceptions the `try/except` absorbs into `model_info = None`).  Returns
`(prompt_cost_in_usd, completion_cost_in_usd)`. -/
def getRerankCost (getModelInfo : String → Option String → Except String ModelInfo)
    (model : String) (numQueries : Nat) (customLlmProvider : Option String) :
    ℚ × ℚ :=
  let modelInfo : Option ModelInfo :=
    match getModelInfo model customLlmProvider with
    | Except.ok mi => some mi
    | Except.error _ => Option.none
  match modelInfo with
  | Option.none => (0, 0)
  | some mi =>
    match mi.inputCostPerQuery with
    | Option.none => (0, 0)
    | some Option.none => (0, 0)
    | some (some c) => (c * numQueries, 0)

/-- A chat message: a Python dict of string fields. -/
abbrev Msg := List (String × String)

/-- `map_developer_role_to_system_role(messages)`: rebuild the list,
replacing every message whose `"role"` is `"developer"` by
`{"role": "system", "content": m["content"]}` and keeping every other
message as the same value.  Subscripting a missing key raises `KeyError`.
-/
def mapDeveloperRoleToSystemRole (messages : List Msg) :
    Except String (List Msg) :=
  match messages with
  | [] => Except.ok []
  | m :: rest =>
    match alGet m "role" with
    | Option.none => Except.error "KeyError: role"
    | some r =>
      if r = "developer" then
        match alGet m "content" with
        | Option.none => Except.error "KeyError: content"
        | some c =>
          match mapDeveloperRoleToSystemRole rest with
          | Except.ok tail =>
              Except.ok ([("role", "system"), ("content", c)] :: tail)
          | Except.error e => Except.error e
      else
        match mapDeveloperRoleToSystemRole rest with
        | Except.ok tail => Except.ok (m :: tail)
        | Except.error e => Except.error e

/-! ## Basic lemmas about the heap primitives -/

theorem natMem_cons_self (v : Nat) (visited : List Nat) :
    natMem (v :: visited) v = true := by
  simp [natMem]

theorem natMem_cons_of_mem {visited : List Nat} {x : Nat}
    (h : natMem visited x = true) (v : Nat) :
    natMem (v :: visited) x = true := by
  simp only [natMem]
  split <;> simp [h]

theorem natMem_cons_false {v : Nat} {visited : List Nat} {x : Nat}
    (h : natMem (v :: visited) x = false) :
    v ≠ x ∧ natMem visited x = false := by
  simp only [natMem] at h
  split at h
  · exact absurd h (by simp)
  · exact ⟨by assumption, h⟩

theorem heapGet_heapSet_self {heap : Heap} {id : Nat} {o0 : JObj}
    (h : heapGet heap id = some o0) (o : JObj) :
    heapGet (heapSet heap id o) id = some o := by
  induction heap with
  | nil => simp [heapGet] at h
  | cons p rest ih =>
    obtain ⟨i, o'⟩ := p
    by_cases hi : i = id
    · subst hi
      simp [heapSet, heapGet]
    · simp only [heapGet, if_neg hi] at h
      simpa [heapSet, heapGet, hi] using ih h

theorem heapGet_heapSet_ne (heap : Heap) {id k : Nat} (hk : k ≠ id) (o : JObj) :
    heapGet (heapSet heap id o) k = heapGet heap k := by
  induction heap with
  | nil => simp [heapSet, heapGet]
  | cons p rest ih =>
    obtain ⟨i, o'⟩ := p
    by_cases hi : i = k
    · subst hi
      have : ¬ (i = id) := fun h => hk (h ▸ rfl)
      simp [heapSet, heapGet, this]
    · simpa [heapSet, heapGet, hi] using ih

theorem heapGet_mem {heap : Heap} {id : Nat} {o : JObj}
    (h : heapGet heap id = some o) : (id, o) ∈ heap := by
  induction heap with
  | nil => simp [heapGet] at h
  | cons p rest ih =>
    obtain ⟨i, o'⟩ := p
    by_cases hi : i = id
    · subst hi
      simp only [heapGet, if_pos rfl] at h
      injection h with h
      subst h
      exact List.mem_cons_self _ _
    · simp only [heapGet, if_neg hi] at h
      exact List.mem_cons_of_mem _ (ih h)

theorem alGet_dictSet_self (es : List (String × JVal)) (k : String) (v : JVal) :
    alGet (dictSet es k v) k = some v := by
  induction es with
  | nil => simp [dictSet, alGet]
  | cons p rest ih =>
    obtain ⟨k', v'⟩ := p
    by_cases hk : k' = k
    · subst hk
      simp [dictSet, alGet]
    · simp [dictSet, alGet, hk, ih]

theorem alGet_dictSet_ne (es : List (String × JVal)) {k k' : String}
    (hk : k' ≠ k) (v : JVal) :
    alGet (dictSet es k v) k' = alGet es k' := by
  induction es with
  | nil =>
    have : ¬ (k = k') := fun h => hk h.symm
    simp [dictSet, alGet, this]
  | cons p rest ih =>
    obtain ⟨k0, v0⟩ := p
    by_cases h0 : k0 = k
    · subst h0
      have : ¬ (k0 = k') := fun h => hk h.symm
      simp [dictSet, alGet, this]
    · by_cases h1 : k0 = k'
      · subst h1
        simp [dictSet, alGet, h0]
      · simp [dictSet, alGet, h0, h1, ih]

theorem childIds_dictSet_str {es : List (String × JVal)} {s : String}
    (h : alGet es "$ref" = some (JVal.str s)) (x : String) :
    childIds (JObj.dict (dictSet es "$ref" (JVal.str x))) =
      childIds (JObj.dict es) := by
  induction es with
  | nil => simp [alGet] at h
  | cons p rest ih =>
    obtain ⟨k, v⟩ := p
    by_cases hk : k = "$ref"
    · subst hk
      simp only [alGet, if_pos rfl] at h
      injection h with h
      subst h
      simp [dictSet, childIds, refId]
    · simp only [alGet, if_neg hk] at h
      simp only [dictSet, if_neg hk, childIds, List.filterMap_cons]
      have := ih h
      simp only [childIds] at this
      rw [this]

/-! ## Termination of the worklist loop -/

theorem heapWeight_cons_mono (heap : Heap) (v : Nat) (visited : List Nat) :
    heapWeight heap (v :: visited) ≤ heapWeight heap visited := by
  induction heap with
  | nil => simp [heapWeight]
  | cons p rest ih =>
    obtain ⟨i, o⟩ := p
    simp only [heapWeight]
    have hhead : (if natMem (v :: visited) i then 0 else objWeight o) ≤
        (if natMem visited i then 0 else objWeight o) := by
      by_cases hm : natMem visited i = true
      · simp [hm, natMem_cons_of_mem hm]
      · simp only [hm]
        split <;> simp
    omega

theorem heapWeight_visit {heap : Heap} {id : Nat} {o : JObj}
    (hg : heapGet heap id = some o) {visited : List Nat}
    (hv : natMem visited id = false) :
    heapWeight heap (id :: visited) + objWeight o ≤ heapWeight heap visited := by
  induction heap with
  | nil => simp [heapGet] at hg
  | cons p rest ih =>
    obtain ⟨i, o'⟩ := p
    by_cases hi : i = id
    · subst hi
      simp only [heapGet, if_pos rfl] at hg
      injection hg with hg
      subst hg
      have hmono := heapWeight_cons_mono rest i visited
      simp only [heapWeight]
      rw [if_pos (natMem_cons_self i visited), if_neg (by simp [hv])]
      omega
    · simp only [heapGet, if_neg hi] at hg
      have hrec := ih hg
      have hm : natMem (id :: visited) i = natMem visited i := by
        simp only [natMem]
        rw [if_neg (show ¬ id = i from fun h => hi h.symm)]
      simp only [heapWeight, hm]
      omega

theorem heapWeight_heapSet {heap : Heap} (id : Nat) (o : JObj)
    (visited : List Nat) :
    heapWeight (heapSet heap id o) (id :: visited) =
      heapWeight heap (id :: visited) := by
  induction heap with
  | nil => simp [heapSet, heapWeight]
  | cons p rest ih =>
    obtain ⟨i, o'⟩ := p
    by_cases hi : i = id
    · subst hi
      simp only [heapSet, List.map_cons, heapWeight] at *
      rw [if_pos (natMem_cons_self i visited),
        if_pos (natMem_cons_self i visited)]
      omega
    · simp only [heapSet, List.map_cons, heapWeight, if_neg hi] at *
      omega

/-- Fuel strictly above the measure `stack.length + heapWeight` makes the
worklist loop finish (return `some`). -/
theorem updateRefsAux_total (t : RefTemplate) :
    ∀ fuel heap stack visited,
      stack.length + heapWeight heap visited < fuel →
      (updateRefsAux t fuel heap stack visited).isSome = true := by
  intro fuel
  induction fuel with
  | zero => intro heap stack visited h; omega
  | succ n ih =>
    intro heap stack visited hlt
    match stack with
    | [] => simp [updateRefsAux]
    | id :: rest =>
      simp only [List.length_cons] at hlt
      simp only [updateRefsAux]
      by_cases hv : natMem visited id = true
      · rw [if_pos hv]
        apply ih
        omega
      · rw [Bool.not_eq_true] at hv
        rw [if_neg (by simp [hv])]
        have hmono := heapWeight_cons_mono heap id visited
        split
        · apply ih
          omega
        · rename_i es hg
          have hvisit := heapWeight_visit hg hv
          simp only [objWeight] at hvisit
          split
          · rename_i s hr
            apply ih
            have hcc := childIds_dictSet_str hr (t.fmt (lastSegment s))
            rw [heapWeight_heapSet]
            simp only [List.length_append, List.length_reverse, hcc]
            omega
          · simp
          · apply ih
            simp only [List.length_append, List.length_reverse]
            omega
        · rename_i xs hg
          have hvisit := heapWeight_visit hg hv
          simp only [objWeight] at hvisit
          apply ih
          simp only [List.length_append, List.length_reverse]
          omega

/-! ## Invariants of one traversal -/

/-- The visited set only grows, and every id that was on the stack is
visited by the time the loop finishes. -/
theorem updateRefsAux_visited (t : RefTemplate) :
    ∀ fuel heap stack visited h' vis',
      updateRefsAux t fuel heap stack visited =
        some (Except.ok (h', vis')) →
      (∀ x, natMem visited x = true → natMem vis' x = true) ∧
      (∀ i, i ∈ stack → natMem vis' i = true) := by
  intro fuel
  induction fuel with
  | zero => intro heap stack visited h' vis' h; simp [updateRefsAux] at h
  | succ n ih =>
    intro heap stack visited h' vis' h
    match stack with
    | [] =>
      simp only [updateRefsAux, Option.some.injEq, Except.ok.injEq,
        Prod.mk.injEq] at h
      obtain ⟨rfl, rfl⟩ := h
      exact ⟨fun x hx => hx, fun i hi => by simp at hi⟩
    | id :: rest =>
      simp only [updateRefsAux] at h
      by_cases hv : natMem visited id = true
      · rw [if_pos hv] at h
        obtain ⟨hmono, hstack⟩ := ih _ _ _ _ _ h
        refine ⟨hmono, fun i hi => ?_⟩
        rcases List.mem_cons.mp hi with rfl | hi
        · exact hmono _ hv
        · exact hstack _ hi
      · rw [if_neg hv] at h
        split at h
        · -- heapGet = none
          obtain ⟨hmono, hstack⟩ := ih _ _ _ _ _ h
          refine ⟨fun x hx => hmono _ (natMem_cons_of_mem hx id),
            fun i hi => ?_⟩
          rcases List.mem_cons.mp hi with rfl | hi
          · exact hmono _ (natMem_cons_self i visited)
          · exact hstack _ hi
        · -- dict
          rename_i es hg
          split at h
          · -- string $ref
            obtain ⟨hmono, hstack⟩ := ih _ _ _ _ _ h
            refine ⟨fun x hx => hmono _ (natMem_cons_of_mem hx id),
              fun i hi => ?_⟩
            rcases List.mem_cons.mp hi with rfl | hi
            · exact hmono _ (natMem_cons_self i visited)
            · exact hstack _ (List.mem_append_right _ hi)
          · simp at h
          · -- no $ref
            obtain ⟨hmono, hstack⟩ := ih _ _ _ _ _ h
            refine ⟨fun x hx => hmono _ (natMem_cons_of_mem hx id),
              fun i hi => ?_⟩
            rcases List.mem_cons.mp hi with rfl | hi
            · exact hmono _ (natMem_cons_self i visited)
            · exact hstack _ (List.mem_append_right _ hi)
        · -- arr
          rename_i xs hg
          obtain ⟨hmono, hstack⟩ := ih _ _ _ _ _ h
          refine ⟨fun x hx => hmono _ (natMem_cons_of_mem hx id),
            fun i hi => ?_⟩
          rcases List.mem_cons.mp hi with rfl | hi
          · exact hmono _ (natMem_cons_self i visited)
          · exact hstack _ (List.mem_append_right _ hi)

/-- Frame: an id that was already visited when the loop state was
entered, or that is never visited at all, keeps its object unchanged. -/
theorem updateRefsAux_frame (t : RefTemplate) :
    ∀ fuel heap stack visited h' vis',
      updateRefsAux t fuel heap stack visited =
        some (Except.ok (h', vis')) →
      (∀ id, natMem visited id = true → heapGet h' id = heapGet heap id) ∧
      (∀ id, natMem vis' id = false → heapGet h' id = heapGet heap id) := by
  intro fuel
  induction fuel with
  | zero => intro heap stack visited h' vis' h; simp [updateRefsAux] at h
  | succ n ih =>
    intro heap stack visited h' vis' h
    match stack with
    | [] =>
      simp only [updateRefsAux, Option.some.injEq, Except.ok.injEq,
        Prod.mk.injEq] at h
      obtain ⟨rfl, rfl⟩ := h
      exact ⟨fun _ _ => rfl, fun _ _ => rfl⟩
    | id :: rest =>
      simp only [updateRefsAux] at h
      by_cases hv : natMem visited id = true
      · rw [if_pos hv] at h
        exact ih _ _ _ _ _ h
      · rw [if_neg hv] at h
        split at h
        · -- heapGet = none
          obtain ⟨h1, h2⟩ := ih _ _ _ _ _ h
          exact ⟨fun i hi => h1 i (natMem_cons_of_mem hi id), h2⟩
        · -- dict
          rename_i es hg
          split at h
          · -- string $ref: the heap is mutated at id
            rename_i s hr
            obtain ⟨h1, h2⟩ := ih _ _ _ _ _ h
            obtain ⟨hmono, _⟩ := updateRefsAux_visited t _ _ _ _ _ _ h
            have hidvis : natMem vis' id = true :=
              hmono id (natMem_cons_self id visited)
            constructor
            · intro i hi
              have hne : i ≠ id := fun hcontra => hv (hcontra ▸ hi)
              rw [h1 i (natMem_cons_of_mem hi id),
                heapGet_heapSet_ne heap hne]
            · intro i hi
              have hne : i ≠ id := fun hcontra => by
                rw [hcontra] at hi
                rw [hidvis] at hi
                exact Bool.true_eq_false.mp hi
              rw [h2 i hi, heapGet_heapSet_ne heap hne]
          · simp at h
          · -- no $ref
            obtain ⟨h1, h2⟩ := ih _ _ _ _ _ h
            exact ⟨fun i hi => h1 i (natMem_cons_of_mem hi id), h2⟩
        · -- arr
          rename_i xs hg
          obtain ⟨h1, h2⟩ := ih _ _ _ _ _ h
          exact ⟨fun i hi => h1 i (natMem_cons_of_mem hi id), h2⟩

theorem natMem_cons_ne {v x : Nat} (h : v ≠ x) (visited : List Nat) :
    natMem (v :: visited) x = natMem visited x := by
  simp only [natMem]
  rw [if_neg h]

/-- Exactness: an id first visited during this run has its object, as it
stood in the entry heap, rewritten exactly once when it is a dict with a
string `"$ref"`, left as-is when it is a dict without `"$ref"` or a
list, and a dict with a non-string `"$ref"` never completes the run. -/
theorem updateRefsAux_exact (t : RefTemplate) :
    ∀ fuel heap stack visited h' vis',
      updateRefsAux t fuel heap stack visited =
        some (Except.ok (h', vis')) →
      ∀ id, natMem visited id = false → natMem vis' id = true →
        (∀ es s, heapGet heap id = some (JObj.dict es) →
          alGet es "$ref" = some (JVal.str s) →
          heapGet h' id = some (JObj.dict
            (dictSet es "$ref" (JVal.str (t.fmt (lastSegment s)))))) ∧
        (∀ es, heapGet heap id = some (JObj.dict es) →
          alGet es "$ref" = none → heapGet h' id = some (JObj.dict es)) ∧
        (∀ es v, heapGet heap id = some (JObj.dict es) →
          alGet es "$ref" = some v → ∃ s, v = JVal.str s) ∧
        (∀ xs, heapGet heap id = some (JObj.arr xs) →
          heapGet h' id = some (JObj.arr xs)) := by
  intro fuel
  induction fuel with
  | zero => intro heap stack visited h' vis' h; simp [updateRefsAux] at h
  | succ n ih =>
    intro heap stack visited h' vis' h
    match stack with
    | [] =>
      simp only [updateRefsAux, Option.some.injEq, Except.ok.injEq,
        Prod.mk.injEq] at h
      obtain ⟨rfl, rfl⟩ := h
      intro id hfalse htrue
      rw [hfalse] at htrue
      exact absurd htrue (by simp)
    | id0 :: rest =>
      simp only [updateRefsAux] at h
      by_cases hv : natMem visited id0 = true
      · rw [if_pos hv] at h
        exact ih _ _ _ _ _ h
      · rw [if_neg hv] at h
        rw [Bool.not_eq_true] at hv
        split at h
        · -- heapGet heap id0 = none
          rename_i hg
          intro id hfalse htrue
          by_cases hid : id = id0
          · subst hid
            refine ⟨fun es s hge _ => ?_, fun es hge _ => ?_,
              fun es v hge _ => ?_, fun xs hge => ?_⟩ <;>
              rw [hg] at hge <;> exact absurd hge (by simp)
          · have hf' : natMem (id0 :: visited) id = false := by
              rw [natMem_cons_ne (fun hc => hid hc.symm)]
              exact hfalse
            exact ih _ _ _ _ _ h id hf' htrue
        · -- dict
          rename_i es0 hg
          split at h
          · -- string $ref
            rename_i s0 hr
            obtain ⟨hfr1, _⟩ := updateRefsAux_frame t _ _ _ _ _ _ h
            intro id hfalse htrue
            by_cases hid : id = id0
            · subst hid
              have hfin : heapGet h' id =
                  some (JObj.dict (dictSet es0 "$ref"
                    (JVal.str (t.fmt (lastSegment s0))))) := by
                rw [hfr1 id (natMem_cons_self id visited)]
                exact heapGet_heapSet_self hg _
              refine ⟨fun es s hge hr' => ?_, fun es hge hr' => ?_,
                fun es v hge hr' => ?_, fun xs hge => ?_⟩
              · rw [hg] at hge
                injection hge with hge
                injection hge with hge
                subst hge
                rw [hr] at hr'
                injection hr' with hr'
                injection hr' with hr'
                subst hr'
                exact hfin
              · rw [hg] at hge
                injection hge with hge
                injection hge with hge
                subst hge
                rw [hr] at hr'
                exact absurd hr' (by simp)
              · rw [hg] at hge
                injection hge with hge
                injection hge with hge
                subst hge
                rw [hr] at hr'
                injection hr' with hr'
                exact ⟨s0, hr'.symm⟩
              · rw [hg] at hge
                exact absurd hge (by simp)
            · have hf' : natMem (id0 :: visited) id = false := by
                rw [natMem_cons_ne (fun hc => hid hc.symm)]
                exact hfalse
              have hne : id ≠ id0 := hid
              have := ih _ _ _ _ _ h id hf' htrue
              rw [heapGet_heapSet_ne heap hne] at this
              exact this
          · simp at h
          · -- dict without $ref
            rename_i hr
            obtain ⟨hfr1, _⟩ := updateRefsAux_frame t _ _ _ _ _ _ h
            intro id hfalse htrue
            by_cases hid : id = id0
            · subst hid
              refine ⟨fun es s hge hr' => ?_, fun es hge hr' => ?_,
                fun es v hge hr' => ?_, fun xs hge => ?_⟩
              · rw [hg] at hge
                injection hge with hge
                injection hge with hge
                subst hge
                rw [hr] at hr'
                exact absurd hr' (by simp)
              · rw [hg] at hge
                injection hge with hge
                injection hge with hge
                subst hge
                rw [hfr1 id (natMem_cons_self id visited)]
                exact hg
              · rw [hg] at hge
                injection hge with hge
                injection hge with hge
                subst hge
                rw [hr] at hr'
                exact absurd hr' (by simp)
              · rw [hg] at hge
                exact absurd hge (by simp)
            · have hf' : natMem (id0 :: visited) id = false := by
                rw [natMem_cons_ne (fun hc => hid hc.symm)]
                exact hfalse
              exact ih _ _ _ _ _ h id hf' htrue
        · -- arr
          rename_i xs0 hg
          obtain ⟨hfr1, _⟩ := updateRefsAux_frame t _ _ _ _ _ _ h
          intro id hfalse htrue
          by_cases hid : id = id0
          · subst hid
            refine ⟨fun es s hge hr' => ?_, fun es hge hr' => ?_,
              fun es v hge hr' => ?_, fun xs hge => ?_⟩
            · rw [hg] at hge
              exact absurd hge (by simp)
            · rw [hg] at hge
              exact absurd hge (by simp)
            · rw [hg] at hge
              exact absurd hge (by simp)
            · rw [hg] at hge
              injection hge with hge
              injection hge with hge
              subst hge
              rw [hfr1 id (natMem_cons_self id visited)]
              exact hg
          · have hf' : natMem (id0 :: visited) id = false := by
              rw [natMem_cons_ne (fun hc => hid hc.symm)]
              exact hfalse
            exact ih _ _ _ _ _ h id hf' htrue

/-- Closure: every child of a node first visited during this run is
itself visited by the end of the run. -/
theorem updateRefsAux_closure (t : RefTemplate) :
    ∀ fuel heap stack visited h' vis',
      updateRefsAux t fuel heap stack visited =
        some (Except.ok (h', vis')) →
      ∀ id o, natMem visited id = false → natMem vis' id = true →
        heapGet heap id = some o →
        ∀ c, c ∈ childIds o → natMem vis' c = true := by
  intro fuel
  induction fuel with
  | zero => intro heap stack visited h' vis' h; simp [updateRefsAux] at h
  | succ n ih =>
    intro heap stack visited h' vis' h
    match stack with
    | [] =>
      simp only [updateRefsAux, Option.some.injEq, Except.ok.injEq,
        Prod.mk.injEq] at h
      obtain ⟨rfl, rfl⟩ := h
      intro id o hfalse htrue
      rw [hfalse] at htrue
      exact absurd htrue (by simp)
    | id0 :: rest =>
      simp only [updateRefsAux] at h
      by_cases hv : natMem visited id0 = true
      · rw [if_pos hv] at h
        exact ih _ _ _ _ _ h
      · rw [if_neg hv] at h
        rw [Bool.not_eq_true] at hv
        split at h
        · -- heapGet heap id0 = none
          rename_i hg
          intro id o hfalse htrue hge
          by_cases hid : id = id0
          · subst hid
            rw [hg] at hge
            exact absurd hge (by simp)
          · have hf' : natMem (id0 :: visited) id = false := by
              rw [natMem_cons_ne (fun hc => hid hc.symm)]
              exact hfalse
            exact ih _ _ _ _ _ h id o hf' htrue hge
        · -- dict
          rename_i es0 hg
          split at h
          · -- string $ref
            rename_i s0 hr
            obtain ⟨_, hstack⟩ := updateRefsAux_visited t _ _ _ _ _ _ h
            intro id o hfalse htrue hge
            by_cases hid : id = id0
            · subst hid
              rw [hg] at hge
              injection hge with hge
              subst hge
              intro c hc
              apply hstack
              apply List.mem_append_left
              rw [List.mem_reverse, childIds_dictSet_str hr]
              exact hc
            · have hf' : natMem (id0 :: visited) id = false := by
                rw [natMem_cons_ne (fun hc => hid hc.symm)]
                exact hfalse
              have hne : id ≠ id0 := hid
              have hge' : heapGet (heapSet heap id0 (JObj.dict
                  (dictSet es0 "$ref" (JVal.str (t.fmt (lastSegment s0)))))
                  ) id = some o := by
                rw [heapGet_heapSet_ne heap hne]
                exact hge
              exact ih _ _ _ _ _ h id o hf' htrue hge'
          · simp at h
          · -- dict without $ref
            obtain ⟨_, hstack⟩ := updateRefsAux_visited t _ _ _ _ _ _ h
            intro id o hfalse htrue hge
            by_cases hid : id = id0
            · subst hid
              rw [hg] at hge
              injection hge with hge
              subst hge
              intro c hc
              apply hstack
              apply List.mem_append_left
              rw [List.mem_reverse]
              exact hc
            · have hf' : natMem (id0 :: visited) id = false := by
                rw [natMem_cons_ne (fun hc => hid hc.symm)]
                exact hfalse
              exact ih _ _ _ _ _ h id o hf' htrue hge
        · -- arr
          rename_i xs0 hg
          obtain ⟨_, hstack⟩ := updateRefsAux_visited t _ _ _ _ _ _ h
          intro id o hfalse htrue hge
          by_cases hid : id = id0
          · subst hid
            rw [hg] at hge
            injection hge with hge
            subst hge
            intro c hc
            apply hstack
            apply List.mem_append_left
            rw [List.mem_reverse]
            exact hc
          · have hf' : natMem (id0 :: visited) id = false := by
              rw [natMem_cons_ne (fun hc => hid hc.symm)]
              exact hfalse
            exact ih _ _ _ _ _ h id o hf' htrue hge

/-- Reachability in the schema graph: from the root object through dict-
and list-valued children. -/
inductive ReachFrom (heap : Heap) (root : Nat) : Nat → Prop where
  | refl : ReachFrom heap root root
  | step {id c : Nat} {o : JObj} (h : ReachFrom heap root id)
      (hg : heapGet heap id = some o) (hc : c ∈ childIds o) :
      ReachFrom heap root c

/-- A successful `updateRefs` run is a successful worklist run with the
canonical fuel. -/
theorem updateRefs_ok_elim {t : RefTemplate} {heap : Heap} {rid : Nat}
    {h' : Heap} (h : updateRefs t heap (JVal.ref rid) = Except.ok h') :
    ∃ vis', updateRefsAux t (updateRefsFuel heap [rid] []) heap [rid] [] =
      some (Except.ok (h', vis')) := by
  have htot := updateRefsAux_total t (updateRefsFuel heap [rid] [])
    heap [rid] [] (by simp [updateRefsFuel])
  simp only [updateRefs] at h
  cases haux : updateRefsAux t (updateRefsFuel heap [rid] []) heap [rid] []
    with
  | none => rw [haux] at htot; simp at htot
  | some r =>
    rw [haux] at h
    cases r with
    | error e => simp at h
    | ok p =>
      obtain ⟨hh, vis'⟩ := p
      simp only [Except.ok.injEq] at h
      subst h
      exact ⟨vis', rfl⟩

/-- Every id reachable from the root is visited by a successful
top-level run. -/
theorem updateRefsAux_reach_visited {t : RefTemplate} {heap : Heap}
    {rid : Nat} {fuel : Nat} {h' : Heap} {vis' : List Nat}
    (h : updateRefsAux t fuel heap [rid] [] = some (Except.ok (h', vis')))
    {id : Nat} (hr : ReachFrom heap rid id) : natMem vis' id = true := by
  induction hr with
  | refl =>
    exact (updateRefsAux_visited t _ _ _ _ _ _ h).2 rid
      (List.mem_singleton.mpr rfl)
  | step hpath hg hc ih =>
    exact updateRefsAux_closure t _ _ _ _ _ _ h _ _ rfl ih hg _ hc

/-! ## Error-freedom when every reference value is a string -/

/-- An object whose `"$ref"` field, if any, is a string (so that
`ref_path.split` cannot raise on it). -/
def objRefsStr (o : JObj) : Bool :=
  match o with
  | JObj.dict es =>
    match alGet es "$ref" with
    | some (JVal.str _) => true
    | some _ => false
    | none => true
  | JObj.arr _ => true

/-- Every object bound in the heap has string-only `"$ref"` values. -/
def allRefsStr (heap : Heap) : Bool := heap.all fun p => objRefsStr p.2

theorem allRefsStr_get {heap : Heap} {id : Nat} {o : JObj}
    (hall : allRefsStr heap = true) (hg : heapGet heap id = some o) :
    objRefsStr o = true := by
  have hmem := heapGet_mem hg
  exact List.all_eq_true.mp hall (id, o) hmem

theorem allRefsStr_heapSet {heap : Heap} (id : Nat) {o : JObj}
    (hall : allRefsStr heap = true) (ho : objRefsStr o = true) :
    allRefsStr (heapSet heap id o) = true := by
  simp only [allRefsStr, heapSet, List.all_eq_true] at *
  intro p hp
  obtain ⟨q, hq, rfl⟩ := List.mem_map.mp hp
  by_cases hqi : q.1 = id
  · simp only [hqi, if_pos rfl]
    exact ho
  · simp only [if_neg hqi]
    exact hall q hq

/-- When every `"$ref"` value in the heap is a string, the worklist loop
never raises. -/
theorem updateRefsAux_no_error (t : RefTemplate) :
    ∀ fuel heap stack visited r,
      allRefsStr heap = true →
      updateRefsAux t fuel heap stack visited = some r →
      ∃ p, r = Except.ok p := by
  intro fuel
  induction fuel with
  | zero => intro heap stack visited r hall h; simp [updateRefsAux] at h
  | succ n ih =>
    intro heap stack visited r hall h
    match stack with
    | [] =>
      simp only [updateRefsAux, Option.some.injEq] at h
      exact ⟨_, h.symm⟩
    | id0 :: rest =>
      simp only [updateRefsAux] at h
      by_cases hv : natMem visited id0 = true
      · rw [if_pos hv] at h
        exact ih _ _ _ _ hall h
      · rw [if_neg hv] at h
        split at h
        · exact ih _ _ _ _ hall h
        · rename_i es hg
          split at h
          · rename_i s hr
            refine ih _ _ _ _ ?_ h
            apply allRefsStr_heapSet _ hall
            simp only [objRefsStr, alGet_dictSet_self]
          · rename_i v hr
            have hobj := allRefsStr_get hall hg
            simp only [objRefsStr, hr] at hobj
            exact absurd hobj (by simp)
          · exact ih _ _ _ _ hall h
        · exact ih _ _ _ _ hall h

/-! ## The deep copy region and freshness -/

theorem freshBase_gt {heap : Heap} {p : Nat × JObj} (hp : p ∈ heap) :
    p.1 < freshBase heap := by
  induction heap with
  | nil => simp at hp
  | cons q rest ih =>
    obtain ⟨i, o⟩ := q
    rcases List.mem_cons.mp hp with rfl | hp
    · simp only [freshBase]
      omega
    · have := ih hp
      simp only [freshBase]
      omega

theorem heapGet_none_of_freshBase_le {heap : Heap} {id : Nat}
    (h : freshBase heap ≤ id) : heapGet heap id = none := by
  cases hg : heapGet heap id with
  | none => rfl
  | some o =>
    have := freshBase_gt (heapGet_mem hg)
    omega

theorem heapGet_append_left {heap : Heap} {id : Nat} {o : JObj}
    (h : heapGet heap id = some o) (rest : Heap) :
    heapGet (heap ++ rest) id = some o := by
  induction heap with
  | nil => simp [heapGet] at h
  | cons p tl ih =>
    obtain ⟨i, o'⟩ := p
    by_cases hi : i = id
    · subst hi
      simp only [heapGet, if_pos rfl] at *
      exact h
    · simp only [List.cons_append, heapGet, if_neg hi] at *
      exact ih h

theorem heapGet_append_right {heap : Heap} {id : Nat}
    (h : heapGet heap id = none) (rest : Heap) :
    heapGet (heap ++ rest) id = heapGet rest id := by
  induction heap with
  | nil => simp
  | cons p tl ih =>
    obtain ⟨i, o'⟩ := p
    by_cases hi : i = id
    · subst hi
      simp only [heapGet, if_pos rfl] at h
      exact absurd h (by simp)
    · simp only [heapGet, if_neg hi] at h
      simp only [List.cons_append, heapGet, if_neg hi]
      exact ih h

theorem heapGet_copyRegion (b : Nat) (heap : Heap) (k : Nat) :
    heapGet (copyRegion b heap) (b + k) =
      (heapGet heap k).map (shiftObj b) := by
  induction heap with
  | nil => simp [copyRegion, heapGet]
  | cons p rest ih =>
    obtain ⟨i, o⟩ := p
    by_cases hi : i = k
    · subst hi
      simp [copyRegion, heapGet]
    · have hne : ¬ (b + i = b + k) := by omega
      simp only [copyRegion, List.map_cons, heapGet, if_neg hne,
        if_neg hi]
      exact ih

theorem heapGet_copyRegion_some {b : Nat} {heap : Heap} {j : Nat}
    {o : JObj} (h : heapGet (copyRegion b heap) j = some o) :
    b ≤ j ∧ ∃ o0, o = shiftObj b o0 := by
  have hmem := heapGet_mem h
  simp only [copyRegion, List.mem_map] at hmem
  obtain ⟨p, _, hp⟩ := hmem
  have h1 : b + p.1 = j := congrArg Prod.fst hp
  have h2 : shiftObj b p.2 = o := congrArg Prod.snd hp
  exact ⟨by omega, ⟨p.2, h2.symm⟩⟩

theorem alGet_shift (b : Nat) (es : List (String × JVal)) (k : String) :
    alGet (es.map fun p => (p.1, shiftVal b p.2)) k =
      (alGet es k).map (shiftVal b) := by
  induction es with
  | nil => simp [alGet]
  | cons p rest ih =>
    obtain ⟨k0, v0⟩ := p
    by_cases hk : k0 = k
    · subst hk
      simp [alGet]
    · simp only [List.map_cons, alGet, if_neg hk]
      exact ih

theorem refId_shiftVal (b : Nat) (v : JVal) :
    refId (shiftVal b v) = (refId v).map (b + ·) := by
  cases v <;> simp [shiftVal, refId]

theorem childIds_shiftObj (b : Nat) (o : JObj) :
    childIds (shiftObj b o) = (childIds o).map (b + ·) := by
  cases o with
  | dict es =>
    simp only [shiftObj, childIds, List.filterMap_map, List.map_filterMap]
    congr 1
    funext p
    simp [Function.comp, refId_shiftVal]
  | arr xs =>
    simp only [shiftObj, childIds, List.filterMap_map, List.map_filterMap]
    congr 1
    funext v
    simp [Function.comp, refId_shiftVal]

/-- Every object bound at or above `b` has all its children at or above
`b` (the copy region is closed: its references never point back into the
original region). -/
def ClosedAbove (b : Nat) (heap : Heap) : Prop :=
  ∀ p ∈ heap, b ≤ p.1 → ∀ c ∈ childIds p.2, b ≤ c

theorem closedAbove_heapSet {b : Nat} {heap : Heap} {id : Nat} {o : JObj}
    (hcl : ClosedAbove b heap)
    {o0 : JObj} (hg : heapGet heap id = some o0)
    (hsub : childIds o = childIds o0) :
    ClosedAbove b (heapSet heap id o) := by
  intro p hp hb
  simp only [heapSet, List.mem_map] at hp
  obtain ⟨q, hq, rfl⟩ := hp
  intro c hc
  split at hc
  · rename_i hqi
    rw [hsub] at hc
    exact hcl (id, o0) (heapGet_mem hg) (le_of_le_of_eq hb hqi) c hc
  · exact hcl q hq hb c hc

/-- In a heap closed above `b`, a run whose stack only holds ids at or
above `b` never changes any binding below `b`. -/
theorem updateRefsAux_preserves_below (t : RefTemplate) (b : Nat) :
    ∀ fuel heap stack visited h' vis',
      ClosedAbove b heap →
      (∀ i, i ∈ stack → b ≤ i) →
      updateRefsAux t fuel heap stack visited =
        some (Except.ok (h', vis')) →
      ∀ id, id < b → heapGet h' id = heapGet heap id := by
  intro fuel
  induction fuel with
  | zero => intro heap stack visited h' vis' _ _ h; simp [updateRefsAux] at h
  | succ n ih =>
    intro heap stack visited h' vis' hcl hstk h
    match stack with
    | [] =>
      simp only [updateRefsAux, Option.some.injEq, Except.ok.injEq,
        Prod.mk.injEq] at h
      obtain ⟨rfl, rfl⟩ := h
      exact fun _ _ => rfl
    | id0 :: rest =>
      have hid0 : b ≤ id0 := hstk id0 (List.mem_cons_self _ _)
      have hrest : ∀ i, i ∈ rest → b ≤ i :=
        fun i hi => hstk i (List.mem_cons_of_mem _ hi)
      simp only [updateRefsAux] at h
      by_cases hv : natMem visited id0 = true
      · rw [if_pos hv] at h
        exact ih _ _ _ _ _ hcl hrest h
      · rw [if_neg hv] at h
        split at h
        · exact ih _ _ _ _ _ hcl hrest h
        · rename_i es hg
          have hchild : ∀ c, c ∈ childIds (JObj.dict es) → b ≤ c :=
            fun c hc => hcl (id0, JObj.dict es) (heapGet_mem hg) hid0 c hc
          split at h
          · rename_i s hr
            have hcc := childIds_dictSet_str hr (t.fmt (lastSegment s))
            have hcl' := closedAbove_heapSet hcl hg hcc
            have hstk' : ∀ i, i ∈ (childIds (JObj.dict
                (dictSet es "$ref" (JVal.str (t.fmt (lastSegment s)))))
                ).reverse ++ rest → b ≤ i := by
              intro i hi
              rcases List.mem_append.mp hi with hi | hi
              · rw [List.mem_reverse, hcc] at hi
                exact hchild i hi
              · exact hrest i hi
            intro id hid
            rw [ih _ _ _ _ _ hcl' hstk' h id hid]
            exact heapGet_heapSet_ne heap (by omega) _
          · simp at h
          · have hstk' : ∀ i,
                i ∈ (childIds (JObj.dict es)).reverse ++ rest → b ≤ i := by
              intro i hi
              rcases List.mem_append.mp hi with hi | hi
              · rw [List.mem_reverse] at hi
                exact hchild i hi
              · exact hrest i hi
            exact ih _ _ _ _ _ hcl hstk' h
        · rename_i xs hg
          have hchild : ∀ c, c ∈ childIds (JObj.arr xs) → b ≤ c :=
            fun c hc => hcl (id0, JObj.arr xs) (heapGet_mem hg) hid0 c hc
          have hstk' : ∀ i,
              i ∈ (childIds (JObj.arr xs)).reverse ++ rest → b ≤ i := by
            intro i hi
            rcases List.mem_append.mp hi with hi | hi
            · rw [List.mem_reverse] at hi
              exact hchild i hi
            · exact hrest i hi
          exact ih _ _ _ _ _ hcl hstk' h

theorem closedAbove_deepcopy (heap : Heap) :
    ClosedAbove (freshBase heap) (deepcopyHeap heap) := by
  intro p hp hb
  simp only [deepcopyHeap, List.mem_append] at hp
  rcases hp with hp | hp
  · have := freshBase_gt hp
    omega
  · simp only [copyRegion, List.mem_map] at hp
    obtain ⟨q, _, rfl⟩ := hp
    intro c hc
    rw [childIds_shiftObj, List.mem_map] at hc
    obtain ⟨c0, _, rfl⟩ := hc
    omega

theorem updateRefs_preserves_below {t : RefTemplate} {b : Nat}
    {heap : Heap} {root : JVal} {h2 : Heap}
    (hcl : ClosedAbove b heap)
    (hroot : ∀ j, root = JVal.ref j → b ≤ j)
    (h : updateRefs t heap root = Except.ok h2) :
    ∀ id, id < b → heapGet h2 id = heapGet heap id := by
  cases root with
  | ref j =>
    obtain ⟨vis', haux⟩ := updateRefs_ok_elim h
    exact updateRefsAux_preserves_below t b _ _ _ _ _ _ hcl
      (fun i hi => by
        rw [List.mem_singleton] at hi
        exact hi ▸ hroot j rfl) haux
  | str s => simp only [updateRefs, Except.ok.injEq] at h; subst h; intros; rfl
  | num n => simp only [updateRefs, Except.ok.injEq] at h; subst h; intros; rfl
  | bool bb => simp only [updateRefs, Except.ok.injEq] at h; subst h; intros; rfl
  | null => simp only [updateRefs, Except.ok.injEq] at h; subst h; intros; rfl

/-- A value read out of a dict in the copy region is a shifted value, so
when it is a reference it points at or above the base. -/
theorem copy_value_ge {b : Nat} {heap : Heap} {j : Nat}
    {es : List (String × JVal)} (hb : b ≤ j)
    (hfb : freshBase heap = b)
    (hget : heapGet (deepcopyHeap heap) j = some (JObj.dict es))
    {k : String} {v : JVal} (hv : alGet es k = some v) :
    ∀ i, v = JVal.ref i → b ≤ i := by
  have hnone : heapGet heap j = none :=
    heapGet_none_of_freshBase_le (by omega)
  rw [deepcopyHeap, heapGet_append_right hnone, hfb] at hget
  obtain ⟨_, o0, ho⟩ := heapGet_copyRegion_some hget
  cases o0 with
  | dict es0 =>
    simp only [shiftObj] at ho
    injection ho with ho
    subst ho
    rw [alGet_shift] at hv
    cases hv0 : alGet es0 k with
    | none => rw [hv0] at hv; exact absurd hv (by simp)
    | some v0 =>
      rw [hv0] at hv
      have hv2 : shiftVal b v0 = v := by simpa using hv
      subst hv2
      intro i hi
      cases v0 with
      | str s => exact absurd hi (by simp [shiftVal])
      | num n => exact absurd hi (by simp [shiftVal])
      | bool bb => exact absurd hi (by simp [shiftVal])
      | null => exact absurd hi (by simp [shiftVal])
      | ref i0 =>
        simp only [shiftVal] at hi
        injection hi with hi
        omega
  | arr xs =>
    simp only [shiftObj] at ho
    exact absurd ho (by simp)

/-- `_dict_to_response_format_helper` never changes any object of the
input heap: every binding that existed before the call reads back
unchanged afterwards (the rewrite happens only inside the fresh copy
region). -/
theorem dictToResponseFormatHelper_preserves_input
    {heap : Heap} {rf : Nat} {tpl : Option RefTemplate} {h' : Heap}
    {r' : Nat}
    (h : dictToResponseFormatHelper heap rf tpl = Except.ok (h', r')) :
    ∀ id o, heapGet heap id = some o → heapGet h' id = some o := by
  intro id o hid
  have hlt : id < freshBase heap := freshBase_gt (heapGet_mem hid)
  simp only [dictToResponseFormatHelper] at h
  split at h
  · -- no template: identity
    simp only [Except.ok.injEq, Prod.mk.injEq] at h
    rw [← h.1]
    exact hid
  · rename_i t
    split at h <;> try exact absurd h (by simp)
    rename_i es hrf
    split at h
    · -- type == json_schema: deep copy then rewrite
      split at h <;> try exact absurd h (by simp)
      rename_i mfEs hmf
      split at h <;> try exact absurd h (by simp)
      rename_i jsId hjs
      split at h <;> try exact absurd h (by simp)
      rename_i jsEs hjg
      split at h <;> try exact absurd h (by simp)
      rename_i schema hsc
      split at h
      case h_2 => exact absurd h (by simp)
      rename_i heap2 hur
      simp only [Except.ok.injEq, Prod.mk.injEq] at h
      obtain ⟨rfl, _⟩ := h
      have hmfge : freshBase heap ≤ freshBase heap + rf :=
        Nat.le_add_right _ _
      have hjsge : freshBase heap ≤ jsId :=
        copy_value_ge hmfge rfl hmf hjs jsId rfl
      have hscref : ∀ j, schema = JVal.ref j → freshBase heap ≤ j :=
        copy_value_ge hjsge rfl hjg hsc
      have hpres := updateRefs_preserves_below
        (closedAbove_deepcopy heap) hscref hur id hlt
      rw [hpres, deepcopyHeap, heapGet_append_left hid]
    · -- other type: identity
      simp only [Except.ok.injEq, Prod.mk.injEq] at h
      rw [← h.1]
      exact hid

/-! ## Concrete fixtures -/

/-- The spec's example envelope:
`{"type":"json_schema","json_schema":{"schema":{"$ref":"#/defs/Foo"}}}`
as an object graph rooted at id 0. -/
def exampleHeap : Heap :=
  [(0, JObj.dict
      [("type", JVal.str "json_schema"), ("json_schema", JVal.ref 1)]),
   (1, JObj.dict [("schema", JVal.ref 2)]),
   (2, JObj.dict [("$ref", JVal.str "#/defs/Foo")])]

/-- The template of the spec's example, interpolating into a prefix. -/
def providerTemplate : RefTemplate := ⟨"provider/", ""⟩

/-- A template whose output starts with the prefix of the example's
references: rewriting "#/defs/Foo" reproduces "#/defs/Foo". -/
def identityTemplate : RefTemplate := ⟨"#/defs/", ""⟩

/-- A template for which one application is observably different from
two: "m" becomes "m/sfx", and rewriting that again would give
"sfx/sfx". -/
def suffixTemplate : RefTemplate := ⟨"", "/sfx"⟩

/-- Two distinct parents (ids 1 and 2) that both point at the same child
object (id 3) carrying a reference. -/
def aliasHeap : Heap :=
  [(0, JObj.dict [("p1", JVal.ref 1), ("p2", JVal.ref 2)]),
   (1, JObj.dict [("c", JVal.ref 3)]),
   (2, JObj.dict [("c", JVal.ref 3)]),
   (3, JObj.dict [("$ref", JVal.str "m")])]

/-- Two structurally equal but distinct reference nodes (ids 1 and 2). -/
def twinHeap : Heap :=
  [(0, JObj.dict [("p1", JVal.ref 1), ("p2", JVal.ref 2)]),
   (1, JObj.dict [("$ref", JVal.str "m")]),
   (2, JObj.dict [("$ref", JVal.str "m")])]

/-- Read `d["json_schema"]["schema"]["$ref"]` out of an envelope when
every step is present, for observing rewrite results. -/
def schemaRefOf (heap : Heap) (rf : Nat) : Option String :=
  match heapGet heap rf with
  | some (JObj.dict es) =>
    match alGet es "json_schema" with
    | some (JVal.ref j) =>
      match heapGet heap j with
      | some (JObj.dict js) =>
        match alGet js "schema" with
        | some (JVal.ref sn) =>
          match heapGet heap sn with
          | some (JObj.dict ss) =>
            match alGet ss "$ref" with
            | some (JVal.str r) => some r
            | _ => Option.none
          | _ => Option.none
        | _ => Option.none
      | _ => Option.none
    | _ => Option.none
  | _ => Option.none

/-! ## Claims -/

/-- C3: for every finite schema graph — cycles and aliasing included,
since the heap may link objects arbitrarily — the worklist traversal of
`update_refs` completes within the fuel bound derived from the stack and
the unvisited heap weight: the identity-based visited set prevents any
reprocessing, so rewriting terminates without looping. -/
theorem c3_traversal_terminates :
    ∀ (t : RefTemplate) (heap : Heap) (stack visited : List Nat),
      (updateRefsAux t (updateRefsFuel heap stack visited)
        heap stack visited).isSome = true :=
  fun t heap stack visited =>
    updateRefsAux_total t _ heap stack visited (by simp [updateRefsFuel])

/-- C7: `type_to_response_format_param` returns `None` unchanged for a
`None` response format, and fails immediately with a `TypeError` naming
the offending value for anything that is neither a mapping nor a
recognized pydantic model class. -/
theorem c7_unsupported_type_error :
    (∀ (heap : Heap) (tpl : Option RefTemplate),
      typeToResponseFormatParam heap ResponseFormatInput.none tpl =
        Except.ok (heap, Option.none)) ∧
    (∀ (heap : Heap) (tpl : Option RefTemplate) (d : String),
      typeToResponseFormatParam heap (ResponseFormatInput.other d) tpl =
        Except.error ("Unsupported response_format type - " ++ d)) :=
  ⟨fun _ _ => rfl, fun _ _ _ => rfl⟩

/-- C5: for a mapping input, `normalize(m, None)` returns the very same
heap object (same identity, no copy); and with a template but a `"type"`
other than `"json_schema"` the mapping is likewise returned unchanged by
reference. -/
theorem c5_dict_passthrough :
    (∀ (heap : Heap) (rf : Nat),
      typeToResponseFormatParam heap (ResponseFormatInput.dict rf)
        Option.none = Except.ok (heap, some rf)) ∧
    (∀ (heap : Heap) (rf : Nat) (es : List (String × JVal))
      (t : RefTemplate),
      heapGet heap rf = some (JObj.dict es) →
      alGet es "type" ≠ some (JVal.str "json_schema") →
      typeToResponseFormatParam heap (ResponseFormatInput.dict rf)
        (some t) = Except.ok (heap, some rf)) := by
  constructor
  · intro heap rf
    rfl
  · intro heap rf es t hget htype
    simp only [typeToResponseFormatParam, dictToResponseFormatHelper, hget]
    rw [if_neg htype]

/-- C5 witness: a concrete mapping with `"type": "text"` passes through
by reference under a template. -/
theorem c5_dict_passthrough_witness :
    typeToResponseFormatParam [(0, JObj.dict [("type", JVal.str "text")])]
      (ResponseFormatInput.dict 0) (some providerTemplate) =
      Except.ok ([(0, JObj.dict [("type", JVal.str "text")])], some 0) :=
  c5_dict_passthrough.2 [(0, JObj.dict [("type", JVal.str "text")])] 0
    [("type", JVal.str "text")] providerTemplate rfl (by decide)

/-- The example envelope after rewriting with the provider template. -/
def exampleHeapRes : Heap :=
  [(0, JObj.dict
      [("type", JVal.str "json_schema"), ("json_schema", JVal.ref 1)]),
   (1, JObj.dict [("schema", JVal.ref 2)]),
   (2, JObj.dict [("$ref", JVal.str "provider/Foo")])]

/-- C2: every mapping node reachable from the schema root whose `"$ref"`
value is a string has that value replaced by the template applied to the
last `/`-segment of the original value, while every other key of the node
is left untouched. -/
theorem c2_template_application :
    ∀ (t : RefTemplate) (heap : Heap) (rid : Nat) (h' : Heap),
      updateRefs t heap (JVal.ref rid) = Except.ok h' →
      ∀ id es s, ReachFrom heap rid id →
        heapGet heap id = some (JObj.dict es) →
        alGet es "$ref" = some (JVal.str s) →
        heapGet h' id = some (JObj.dict
          (dictSet es "$ref" (JVal.str (t.fmt (lastSegment s))))) ∧
        (∀ k, k ≠ "$ref" →
          alGet (dictSet es "$ref" (JVal.str (t.fmt (lastSegment s)))) k =
            alGet es k) := by
  intro t heap rid h' h id es s hreach hg hr
  obtain ⟨vis', haux⟩ := updateRefs_ok_elim h
  have hvis := updateRefsAux_reach_visited haux hreach
  refine ⟨(updateRefsAux_exact t _ _ _ _ _ _ haux id rfl hvis).1 es s hg hr,
    ?_⟩
  intro k hk
  exact alGet_dictSet_ne es hk _

/-- C2 witness: on the spec's example envelope with the template that
prepends `provider/`, the schema node's `$ref` becomes `provider/Foo`. -/
theorem c2_template_application_witness :
    heapGet exampleHeapRes 2 = some (JObj.dict
      (dictSet [("$ref", JVal.str "#/defs/Foo")] "$ref"
        (JVal.str (providerTemplate.fmt (lastSegment "#/defs/Foo"))))) ∧
    (∀ k, k ≠ "$ref" →
      alGet (dictSet [("$ref", JVal.str "#/defs/Foo")] "$ref"
        (JVal.str (providerTemplate.fmt (lastSegment "#/defs/Foo")))) k =
        alGet [("$ref", JVal.str "#/defs/Foo")] k) :=
  c2_template_application providerTemplate exampleHeap 0 exampleHeapRes rfl
    2 [("$ref", JVal.str "#/defs/Foo")] "#/defs/Foo"
    (@ReachFrom.step exampleHeap 0 1 2
      (JObj.dict [("schema", JVal.ref 2)])
      (@ReachFrom.step exampleHeap 0 0 1
        (JObj.dict
          [("type", JVal.str "json_schema"), ("json_schema", JVal.ref 1)])
        ReachFrom.refl rfl (by decide))
      rfl (by decide))
    rfl rfl

/-- C4: deduplication is keyed on object identity — during one run every
dict object is left as it was or rewritten exactly once (never twice);
concretely, with the non-idempotent suffix template, the child shared by
two distinct parents is rewritten once (to `m/sfx`, not `sfx/sfx`), while
two structurally equal but distinct nodes are each rewritten. -/
theorem c4_identity_dedup :
    (∀ (t : RefTemplate) (heap : Heap) (rid : Nat) (h' : Heap),
      updateRefs t heap (JVal.ref rid) = Except.ok h' →
      ∀ id es, heapGet heap id = some (JObj.dict es) →
        heapGet h' id = some (JObj.dict es) ∨
        ∃ s, alGet es "$ref" = some (JVal.str s) ∧
          heapGet h' id = some (JObj.dict
            (dictSet es "$ref" (JVal.str (t.fmt (lastSegment s)))))) ∧
    updateRefs suffixTemplate aliasHeap (JVal.ref 0) =
      Except.ok
        [(0, JObj.dict [("p1", JVal.ref 1), ("p2", JVal.ref 2)]),
         (1, JObj.dict [("c", JVal.ref 3)]),
         (2, JObj.dict [("c", JVal.ref 3)]),
         (3, JObj.dict [("$ref", JVal.str "m/sfx")])] ∧
    updateRefs suffixTemplate twinHeap (JVal.ref 0) =
      Except.ok
        [(0, JObj.dict [("p1", JVal.ref 1), ("p2", JVal.ref 2)]),
         (1, JObj.dict [("$ref", JVal.str "m/sfx")]),
         (2, JObj.dict [("$ref", JVal.str "m/sfx")])] := by
  refine ⟨?_, rfl, rfl⟩
  intro t heap rid h' h id es hg
  obtain ⟨vis', haux⟩ := updateRefs_ok_elim h
  cases hvis : natMem vis' id with
  | false =>
    left
    rw [(updateRefsAux_frame t _ _ _ _ _ _ haux).2 id hvis]
    exact hg
  | true =>
    have hex := updateRefsAux_exact t _ _ _ _ _ _ haux id rfl hvis
    cases halr : alGet es "$ref" with
    | none =>
      left
      exact hex.2.1 es hg halr
    | some v =>
      obtain ⟨s, rfl⟩ := hex.2.2.1 es v hg halr
      right
      exact ⟨s, rfl, hex.1 es s hg halr⟩

/-- C4 witness: the shared child of the aliasing fixture carries exactly
one application of the template after the run. -/
theorem c4_identity_dedup_witness :
    heapGet
      [(0, JObj.dict [("p1", JVal.ref 1), ("p2", JVal.ref 2)]),
       (1, JObj.dict [("c", JVal.ref 3)]),
       (2, JObj.dict [("c", JVal.ref 3)]),
       (3, JObj.dict [("$ref", JVal.str "m/sfx")])] 3 =
      some (JObj.dict [("$ref", JVal.str "m")]) ∨
    ∃ s, alGet [("$ref", JVal.str "m")] "$ref" = some (JVal.str s) ∧
      heapGet
        [(0, JObj.dict [("p1", JVal.ref 1), ("p2", JVal.ref 2)]),
         (1, JObj.dict [("c", JVal.ref 3)]),
         (2, JObj.dict [("c", JVal.ref 3)]),
         (3, JObj.dict [("$ref", JVal.str "m/sfx")])] 3 =
        some (JObj.dict (dictSet [("$ref", JVal.str "m")] "$ref"
          (JVal.str (suffixTemplate.fmt (lastSegment s))))) :=
  c4_identity_dedup.1 suffixTemplate aliasHeap 0
    [(0, JObj.dict [("p1", JVal.ref 1), ("p2", JVal.ref 2)]),
     (1, JObj.dict [("c", JVal.ref 3)]),
     (2, JObj.dict [("c", JVal.ref 3)]),
     (3, JObj.dict [("$ref", JVal.str "m/sfx")])] rfl
    3 [("$ref", JVal.str "m")] rfl

/-- C1 counterexample: with the template that prepends `#/defs/` — a
legitimate reference template — the rewritten `$ref` of the returned copy
equals the input's original value `#/defs/Foo`, so the claim's "the
returned value differs from the input at the rewritten `$ref` field"
fails for this mapping/template pair: the rewrite is applied but
reproduces the same string. -/
theorem c1_counterexample :
    (match dictToResponseFormatHelper exampleHeap 0 (some identityTemplate)
      with
     | Except.ok p => schemaRefOf p.1 p.2
     | Except.error _ => Option.none) = schemaRefOf exampleHeap 0 ∧
    schemaRefOf exampleHeap 0 = some "#/defs/Foo" :=
  ⟨rfl, rfl⟩

/-- C1 (amended): the normalizer never mutates the input mapping — every
binding of the input heap reads back unchanged after a successful call,
because all rewriting happens on an independent deep copy — and the
returned copy's `$ref` equals the template applied to the last path
segment, which coincides with the input's value exactly when the template
reproduces it, so the returned value need not differ from the input. -/
theorem c1_nonmutation :
    (∀ (heap : Heap) (rf : Nat) (tpl : Option RefTemplate) (h' : Heap)
      (r' : Nat),
      dictToResponseFormatHelper heap rf tpl = Except.ok (h', r') →
      ∀ id o, heapGet heap id = some o → heapGet h' id = some o) ∧
    (∀ t : RefTemplate,
      (match dictToResponseFormatHelper exampleHeap 0 (some t) with
       | Except.ok p => schemaRefOf p.1 p.2
       | Except.error _ => Option.none) = some (t.fmt "Foo")) := by
  constructor
  · intro heap rf tpl h' r' h
    exact dictToResponseFormatHelper_preserves_input h
  · intro t
    rfl

/-- C1 witness: normalizing the example envelope with the provider
template leaves the input's schema node (id 2) bound to its original
object in the returned heap. -/
theorem c1_nonmutation_witness :
    heapGet
      [(0, JObj.dict
          [("type", JVal.str "json_schema"), ("json_schema", JVal.ref 1)]),
       (1, JObj.dict [("schema", JVal.ref 2)]),
       (2, JObj.dict [("$ref", JVal.str "#/defs/Foo")]),
       (3, JObj.dict
          [("type", JVal.str "json_schema"), ("json_schema", JVal.ref 4)]),
       (4, JObj.dict [("schema", JVal.ref 5)]),
       (5, JObj.dict [("$ref", JVal.str "provider/Foo")])] 2 =
      some (JObj.dict [("$ref", JVal.str "#/defs/Foo")]) :=
  c1_nonmutation.1 exampleHeap 0 (some providerTemplate)
    [(0, JObj.dict
        [("type", JVal.str "json_schema"), ("json_schema", JVal.ref 1)]),
     (1, JObj.dict [("schema", JVal.ref 2)]),
     (2, JObj.dict [("$ref", JVal.str "#/defs/Foo")]),
     (3, JObj.dict
        [("type", JVal.str "json_schema"), ("json_schema", JVal.ref 4)]),
     (4, JObj.dict [("schema", JVal.ref 5)]),
     (5, JObj.dict [("$ref", JVal.str "provider/Foo")])] 3 rfl
    2 (JObj.dict [("$ref", JVal.str "#/defs/Foo")]) rfl

/-- C6 counterexample: a mapping whose `$ref` value is the number 5 makes
`update_refs` raise (Python calls `.split` on the non-string value),
refuting "the rewriter raises no errors for any input, non-string $ref
values are tolerated". -/
theorem c6_counterexample :
    updateRefs providerTemplate [(0, JObj.dict [("$ref", JVal.num 5)])]
      (JVal.ref 0) =
      Except.error "AttributeError: object has no attribute split" :=
  rfl

theorem takeWhile_ne_slash_of_all {l : List Char}
    (h : ∀ c ∈ l, c ≠ '/') : (l.takeWhile fun c => c ≠ '/') = l := by
  induction l with
  | nil => rfl
  | cons c rest ih =>
    have hc : c ≠ '/' := h c (List.mem_cons_self _ _)
    have hrest := ih fun c2 hc2 => h c2 (List.mem_cons_of_mem _ hc2)
    simp only [List.takeWhile_cons]
    rw [if_pos (by simp [hc]), hrest]

/-- C6 (amended): `update_refs` raises no error whenever every `"$ref"`
value in the heap is a string; in particular a string value with no `/`
separator is tolerated, the whole value serving as the bare component
name (its last segment is itself).  A non-string `"$ref"` value, however,
raises an `AttributeError` (see the counterexample). -/
theorem c6_no_error_for_string_refs :
    (∀ (t : RefTemplate) (heap : Heap) (root : JVal),
      allRefsStr heap = true →
      ∃ h', updateRefs t heap root = Except.ok h') ∧
    (∀ s : String, '/' ∉ s.data → lastSegment s = s) := by
  constructor
  · intro t heap root hall
    cases root with
    | ref j =>
      have htot := updateRefsAux_total t (updateRefsFuel heap [j] []) heap
        [j] [] (by simp [updateRefsFuel])
      obtain ⟨r, hr⟩ := Option.isSome_iff_exists.mp htot
      obtain ⟨p, rfl⟩ := updateRefsAux_no_error t _ _ _ _ _ hall hr
      obtain ⟨ph, pv⟩ := p
      refine ⟨ph, ?_⟩
      simp only [updateRefs, hr]
    | str s => exact ⟨heap, rfl⟩
    | num n => exact ⟨heap, rfl⟩
    | bool b => exact ⟨heap, rfl⟩
    | null => exact ⟨heap, rfl⟩
  · intro s hs
    have hall : ∀ c ∈ s.data.reverse, c ≠ '/' := by
      intro c hc
      rw [List.mem_reverse] at hc
      exact fun h => hs (h ▸ hc)
    simp only [lastSegment, takeWhile_ne_slash_of_all hall,
      List.reverse_reverse]

/-- C6 witness: the slash-free reference "Foo" is rewritten without
error, its whole value serving as the bare name. -/
theorem c6_no_error_for_string_refs_witness :
    (∃ h', updateRefs providerTemplate
      [(0, JObj.dict [("$ref", JVal.str "Foo")])] (JVal.ref 0) =
      Except.ok h') ∧ lastSegment "Foo" = "Foo" :=
  ⟨c6_no_error_for_string_refs.1 providerTemplate
      [(0, JObj.dict [("$ref", JVal.str "Foo")])] (JVal.ref 0) rfl,
   c6_no_error_for_string_refs.2 "Foo" (by decide)⟩

/-- C8: `get_rerank_cost` absorbs every lookup failure — an exception
from `get_model_info`, a missing `input_cost_per_query` key, or a `None`
value — and returns exactly `(0.0, 0.0)` instead of propagating it (as a
total function it raises nothing itself). -/
theorem c8_rerank_cost_failopen :
    ∀ (gmi : String → Option String → Except String ModelInfo)
      (model : String) (n : Nat) (prov : Option String),
      ((∃ e, gmi model prov = Except.error e) ∨
        (∃ mi, gmi model prov = Except.ok mi ∧
          (mi.inputCostPerQuery = Option.none ∨
           mi.inputCostPerQuery = some Option.none))) →
      getRerankCost gmi model n prov = (0, 0) := by
  intro gmi model n prov h
  rcases h with ⟨e, he⟩ | ⟨mi, hmi, hc⟩
  · simp only [getRerankCost, he]
  · rcases hc with hc | hc <;> simp only [getRerankCost, hmi, hc]

/-- C8 witness: an unknown model (lookup raises) costs `(0.0, 0.0)`. -/
theorem c8_rerank_cost_failopen_witness :
    getRerankCost (fun _ _ => Except.error "model not found") "bad-model"
      3 Option.none = (0, 0) :=
  c8_rerank_cost_failopen (fun _ _ => Except.error "model not found")
    "bad-model" 3 Option.none (Or.inl ⟨"model not found", rfl⟩)

/-- C9: the role remap returns a list of the same length and order in
which every message whose `"role"` is `"developer"` is replaced by
`{"role": "system", "content": <same content>}` and every other message
is passed through as the same value. -/
theorem c9_role_remap :
    ∀ (messages out : List Msg),
      mapDeveloperRoleToSystemRole messages = Except.ok out →
      List.Forall₂ (fun m m2 =>
        (∃ c, alGet m "role" = some "developer" ∧
          alGet m "content" = some c ∧
          m2 = [("role", "system"), ("content", c)]) ∨
        (∃ r, alGet m "role" = some r ∧ r ≠ "developer" ∧ m2 = m))
        messages out := by
  intro messages
  induction messages with
  | nil =>
    intro out h
    simp only [mapDeveloperRoleToSystemRole, Except.ok.injEq] at h
    subst h
    exact List.Forall₂.nil
  | cons m rest ih =>
    intro out h
    simp only [mapDeveloperRoleToSystemRole] at h
    split at h
    · exact absurd h (by simp)
    · rename_i r hrole
      split at h
      · rename_i hdev
        split at h
        · exact absurd h (by simp)
        · rename_i c hcont
          split at h
          · rename_i tail htail
            simp only [Except.ok.injEq] at h
            subst h
            exact List.Forall₂.cons
              (Or.inl ⟨c, hdev ▸ hrole, hcont, rfl⟩) (ih tail htail)
          · exact absurd h (by simp)
      · rename_i hdev
        split at h
        · rename_i tail htail
          simp only [Except.ok.injEq] at h
          subst h
          exact List.Forall₂.cons
            (Or.inr ⟨r, hrole, hdev, rfl⟩) (ih tail htail)
        · exact absurd h (by simp)

/-- C9 witness: the spec's example — a developer message followed by a
user message — maps to a system message with the same content followed by
the unchanged user message, in order. -/
theorem c9_role_remap_witness :
    List.Forall₂ (fun m m2 =>
      (∃ c, alGet m "role" = some "developer" ∧
        alGet m "content" = some c ∧
        m2 = [("role", "system"), ("content", c)]) ∨
      (∃ r, alGet m "role" = some r ∧ r ≠ "developer" ∧ m2 = m))
      [[("role", "developer"), ("content", "x")],
       [("role", "user"), ("content", "y")]]
      [[("role", "system"), ("content", "x")],
       [("role", "user"), ("content", "y")]] :=
  c9_role_remap
    [[("role", "developer"), ("content", "x")],
     [("role", "user"), ("content", "y")]]
    [[("role", "system"), ("content", "x")],
     [("role", "user"), ("content", "y")]] rfl

/-- C10: on a successful lookup whose `input_cost_per_query` is present
and not `None`, the prompt cost is that cost multiplied by the query
count; and on every path, success included, the completion-cost
component of the returned pair is exactly 0.0. -/
theorem c10_rerank_cost_success :
    (∀ (gmi : String → Option String → Except String ModelInfo)
      (model : String) (n : Nat) (prov : Option String)
      (mi : ModelInfo) (c : ℚ),
      gmi model prov = Except.ok mi →
      mi.inputCostPerQuery = some (some c) →
      getRerankCost gmi model n prov = (c * n, 0)) ∧
    (∀ (gmi : String → Option String → Except String ModelInfo)
      (model : String) (n : Nat) (prov : Option String),
      (getRerankCost gmi model n prov).2 = 0) := by
  constructor
  · intro gmi model n prov mi c hmi hc
    simp only [getRerankCost, hmi, hc]
  · intro gmi model n prov
    cases hg : gmi model prov with
    | error e => simp only [getRerankCost, hg]
    | ok mi =>
      cases hmi : mi.inputCostPerQuery with
      | none => simp only [getRerankCost, hg, hmi]
      | some v =>
        cases v with
        | none => simp only [getRerankCost, hg, hmi]
        | some c => simp only [getRerankCost, hg, hmi]

/-- C10 witness: cost 3 per query times 4 queries gives prompt cost 12
and completion cost 0. -/
theorem c10_rerank_cost_success_witness :
    getRerankCost (fun _ _ => Except.ok ⟨some (some (3 : ℚ))⟩) "m" 4
      Option.none = ((3 : ℚ) * ((4 : Nat) : ℚ), 0) :=
  c10_rerank_cost_success.1 (fun _ _ => Except.ok ⟨some (some (3 : ℚ))⟩)
    "m" 4 Option.none ⟨some (some (3 : ℚ))⟩ 3 rfl rfl
